import Mathlib

set_option maxHeartbeats 1000000

namespace Evcpp

/-- Promise status enumeration (src/unnamed/part_000, lines 22-29). -/
inductive PromiseStatus where
  | kInit
  | kPreResolved
  | kResolved
  | kPreRejected
  | kRejected
  | kCancelled
deriving DecidableEq, BEq

/-- A settled payload as stored by Resolve and Reject: the storage optional of
PromiseStateInternal only ever holds a value form (from Resolve) or an error
form (from Reject). -/
inductive Settlement (T E : Type) where
  | value (v : T)
  | error (e : E)
deriving DecidableEq

/-- Whether a settled payload is a value. -/
def Settlement.isValue {T E : Type} : Settlement T E → Bool
  | .value _ => true
  | .error _ => false

/-- Result<T,E> (src/unnamed/part_000, lines 807-865): a tagged union over a
variant of monostate, T and E; null is the default monostate alternative. -/
inductive Result (T E : Type) where
  | null
  | value (v : T)
  | error (e : E)
deriving DecidableEq

/-- Result<T,E>::IsValue (line 825): the variant index equals kValue. -/
def Result.IsValue {T E : Type} : Result T E → Bool
  | .value _ => true
  | _ => false

/-- Result<T,E>::IsError (line 824): the variant index equals kError. -/
def Result.IsError {T E : Type} : Result T E → Bool
  | .error _ => true
  | _ => false

/-- PromiseStateInternal<T,E> data (lines 104-164): status, storage and the
at-most-one callback. The callback slot holds an abstract token of type G; the
executor field is not modelled, since it only decides where a delivery runs,
never whether the state changes. -/
structure PState (T E G : Type) where
  status : PromiseStatus
  storage : Option (Settlement T E)
  cb : Option G
deriving DecidableEq

/-- A freshly constructed promise state (line 174): status Init, empty
storage, no callback. -/
def initPState {T E G : Type} : PState T E G := ⟨.kInit, none, none⟩

/-- Statuses accepted by the switch in PromiseStateBase::Cancel
(lines 57-72). -/
def cancellable : PromiseStatus → Bool
  | .kInit => true
  | .kPreResolved => true
  | .kPreRejected => true
  | _ => false

/-- Terminal statuses: Resolved, Rejected, Cancelled. -/
def terminalStatus : PromiseStatus → Bool
  | .kResolved => true
  | .kRejected => true
  | .kCancelled => true
  | _ => false

/-- PromiseStateInternal<T,E>::TryInvokeCallback (lines 128-151). Delivery
fires only when a callback is installed and the status is PreResolved or
PreRejected; it moves the callback and the storage out of the state, advances
the status to the delivered form, and hands the pair to RunInExecutor. The
model returns the handed-off pair. A Pre status with empty storage cannot
arise along reachable states, because Resolve and Reject set storage together
with the Pre status; that dead branch is modelled as a no-op. -/
def tryInvokeCallback {T E G : Type} (s : PState T E G) :
    PState T E G × Option (G × Settlement T E) :=
  match s.cb, s.storage with
  | some c, some val =>
      if s.status = .kPreResolved then (⟨.kResolved, none, none⟩, some (c, val))
      else if s.status = .kPreRejected then (⟨.kRejected, none, none⟩, some (c, val))
      else (s, none)
  | _, _ => (s, none)

/-- PromiseState<T,E>::Resolve (lines 196-206): valid from Init only; stores
the value, moves to PreResolved, then runs TryInvokeCallback. Returns the new
state, the boolean result, and the delivery hand-off when one fired. -/
def resolveOp {T E G : Type} (s : PState T E G) (v : T) :
    PState T E G × Bool × Option (G × Settlement T E) :=
  if s.status = .kInit then
    let r := tryInvokeCallback (⟨.kPreResolved, some (.value v), s.cb⟩ : PState T E G)
    (r.1, true, r.2)
  else (s, false, none)

/-- PromiseState<T,E>::Reject (lines 184-194). -/
def rejectOp {T E G : Type} (s : PState T E G) (e : E) :
    PState T E G × Bool × Option (G × Settlement T E) :=
  if s.status = .kInit then
    let r := tryInvokeCallback (⟨.kPreRejected, some (.error e), s.cb⟩ : PState T E G)
    (r.1, true, r.2)
  else (s, false, none)

/-- PromiseStateBase::Cancel combined with PromiseStateInternal::OnCancel for
a state with no downstream (lines 57-72 and 112-117): from a cancellable
status, set Cancelled, clear callback and storage, and return true; from a
terminal status return false and change nothing. Destruction of an attached
coroutine handle is not modelled. -/
def cancelOp {T E G : Type} (s : PState T E G) : PState T E G × Bool :=
  if cancellable s.status then (⟨.kCancelled, none, none⟩, true)
  else (s, false)

/-- PromiseStateInternal<T,E>::AddCallback (lines 121-126): install the
callback (overwriting any previous one; the executor update is not modelled)
and try delivery. -/
def addCallbackOp {T E G : Type} (s : PState T E G) (c : G) :
    PState T E G × Option (G × Settlement T E) :=
  tryInvokeCallback ⟨s.status, s.storage, some c⟩

/-- Resolver<T,E>::Resolve (lines 391-397): lock the weak state; on a live
state delegate to PromiseState::Resolve and surface its boolean, otherwise
return false. The locked state is modelled as an Option. -/
def Resolver.Resolve {T E G : Type} (stat : Option (PState T E G)) (v : T) :
    Option (PState T E G) × Bool :=
  match stat with
  | some s => (some (resolveOp s v).1, (resolveOp s v).2.1)
  | none => (none, false)

/-- Resolver<T,E>::Reject (lines 383-389). -/
def Resolver.Reject {T E G : Type} (stat : Option (PState T E G)) (e : E) :
    Option (PState T E G) × Bool :=
  match stat with
  | some s => (some (rejectOp s e).1, (rejectOp s e).2.1)
  | none => (none, false)

/-- PromiseState<T,E>::PropagateResult (lines 609-617). The source tests the
raw pointer r, which is always non-null because the Attach closure passes the
address of a local, rather than the variant of the pointed-to Result. The
Resolve branch is therefore taken for every result; when the Result does not
hold a value, the expression moving out of Value() dereferences the null
pointer returned by get_if applied to the wrong alternative, which is
undefined behavior, modelled as none. The Reject branch is unreachable. -/
def PromiseState.PropagateResult {T E G : Type} (s : PState T E G) (r : Result T E) :
    Option (PState T E G × Bool × Option (G × Settlement T E)) :=
  match r with
  | .value v => some (resolveOp s v)
  | _ => none

/-- Promise<T,E>::IsPending (lines 506-510): true exactly on the two
settled-but-undelivered statuses. -/
def Promise.IsPending (status : PromiseStatus) : Bool :=
  (status == .kPreResolved) || (status == .kPreRejected)

/-- PromiseAwaiter<T,E>::await_ready (line 1224): returns IsPending of the
awaited promise. -/
def PromiseAwaiter.await_ready (status : PromiseStatus) : Bool :=
  Promise.IsPending status

/-- Result<void,E> (lines 867-896): carries only an optional error. -/
structure ResultVoid (E : Type) where
  err : Option E
deriving DecidableEq

/-- Result<void,E>::IsError (line 882). -/
def ResultVoid.IsError {E : Type} (r : ResultVoid E) : Bool := r.err.isSome

/-- Result<void,E>::IsValue (line 883): the source returns false
unconditionally, also when no error is stored. -/
def ResultVoid.IsValue {E : Type} (_ : ResultVoid E) : Bool := false

/-- CoroutineTrait<void,E>::promise_type::return_value for a Result<void,E>
argument (lines 1194-1201): resolves the outer promise when IsValue is false,
otherwise rejects with the stored error; reading the error when none is
stored would throw, modelled as none. The state of the outer promise is
threaded explicitly. -/
def returnValueVoid {E G : Type} (s : PState Unit E G) (r : ResultVoid E) :
    Option (PState Unit E G × Bool) :=
  if r.IsValue = false then
    some ((resolveOp s ()).1, (resolveOp s ()).2.1)
  else
    (r.err).map fun e => ((rejectOp s e).1, (rejectOp s e).2.1)

/-- PromiseStateBase::Cancel for a state that has a downstream next state
(lines 57-72 with OnCancel, lines 112-117): from a cancellable status the
receiver becomes Cancelled with callback and storage cleared, and the
returned boolean is the result of Cancel on the downstream state; with no
downstream the boolean is true. -/
def PromiseStateBase.CancelWithNext {T E G U F D : Type} (s : PState T E G)
    (next : Option (PState U F D)) : (PState T E G × Option (PState U F D)) × Bool :=
  if cancellable s.status then
    match next with
    | some t => (((⟨.kCancelled, none, none⟩ : PState T E G), some (cancelOp t).1), (cancelOp t).2)
    | none => (((⟨.kCancelled, none, none⟩ : PState T E G), none), true)
  else ((s, next), false)

/-- Observable callback invocations in a two-promise chain. -/
inductive ChainEvent where
  | aCallbackRun
  | bCallbackRun
deriving DecidableEq

/-- A two-element chain A to B as built by Promise::Then with a
Result-returning continuation (lines 493-501 and 243-264): B watches A, and
the continuation closure is installed as the callback of A. The ub flag
records that the propagation into B hit the undefined-behavior path of
PropagateResult. The continuation f itself is passed to each operation. -/
structure ThenChain (T E U F : Type) where
  a : PState T E Unit
  b : PState U F Unit
  ub : Bool
deriving DecidableEq

/-- The chain right after Then returned: A is Init with the propagation
closure installed, B is a fresh Init state. -/
def ThenChain.init {T E U F : Type} : ThenChain T E U F :=
  ⟨⟨.kInit, none, some ()⟩, initPState, false⟩

/-- Feed the Result returned by the continuation into B through
PropagateResult, recording any delivery of the callback of B, or set the ub
flag when PropagateResult hits undefined behavior. -/
def propagateIntoB {T E U F : Type} (c : ThenChain T E U F) (r : Result U F) :
    ThenChain T E U F × List ChainEvent :=
  match PromiseState.PropagateResult c.b r with
  | some (b', _, ev) =>
      ({ c with b := b' }, match ev with | some _ => [.bCallbackRun] | none => [])
  | none => ({ c with ub := true }, [])

/-- Resolve A (null executor, so a fired delivery runs the continuation
inline): when delivery fires, the closure of the Attach specialization for
Result-returning continuations applies f to the delivered payload and calls
PropagateResult on B (lines 243-264). -/
def ThenChain.resolveA {T E U F : Type} (f : Settlement T E → Result U F)
    (c : ThenChain T E U F) (v : T) : ThenChain T E U F × Bool × List ChainEvent :=
  let r := resolveOp c.a v
  match r.2.2 with
  | none => ({ c with a := r.1 }, r.2.1, [])
  | some (_, val) =>
      let p := propagateIntoB { c with a := r.1 } (f val)
      (p.1, r.2.1, .aCallbackRun :: p.2)

/-- Reject A; same delivery behavior as resolveA. -/
def ThenChain.rejectA {T E U F : Type} (f : Settlement T E → Result U F)
    (c : ThenChain T E U F) (e : E) : ThenChain T E U F × Bool × List ChainEvent :=
  let r := rejectOp c.a e
  match r.2.2 with
  | none => ({ c with a := r.1 }, r.2.1, [])
  | some (_, val) =>
      let p := propagateIntoB { c with a := r.1 } (f val)
      (p.1, r.2.1, .aCallbackRun :: p.2)

/-- PromiseStateBase::Cancel on A (lines 57-72): from a cancellable status A
becomes Cancelled, OnCancel clears its callback and storage and forwards
Cancel to B; the boolean is the result of the forwarded Cancel. -/
def ThenChain.cancelA {T E U F : Type} (c : ThenChain T E U F) :
    ThenChain T E U F × Bool :=
  if cancellable c.a.status then
    ({ c with a := (⟨.kCancelled, none, none⟩ : PState T E Unit), b := (cancelOp c.b).1 },
      (cancelOp c.b).2)
  else (c, false)

/-- Cancel on B alone (B has no downstream). -/
def ThenChain.cancelB {T E U F : Type} (c : ThenChain T E U F) :
    ThenChain T E U F × Bool :=
  ({ c with b := (cancelOp c.b).1 }, (cancelOp c.b).2)

/-- Attach a void continuation to B (Then specialization 1 on B). -/
def ThenChain.addCbB {T E U F : Type} (c : ThenChain T E U F) :
    ThenChain T E U F × List ChainEvent :=
  let r := addCallbackOp c.b ()
  ({ c with b := r.1 }, match r.2 with | some _ => [.bCallbackRun] | none => [])

/-- The operations the chain protocol performs on a Then-built chain: A is
settled through its resolver, either end may be cancelled, and a consumer may
attach a continuation to B. B itself is settled only by propagation from A. -/
inductive ChainOp (T E : Type) where
  | resolveA (v : T)
  | rejectA (e : E)
  | cancelA
  | cancelB
  | addCbB

/-- One protocol step, returning the new chain and the callback invocations
it performed. -/
def ThenChain.step {T E U F : Type} (f : Settlement T E → Result U F)
    (c : ThenChain T E U F) (op : ChainOp T E) : ThenChain T E U F × List ChainEvent :=
  match op with
  | .resolveA v => ((c.resolveA f v).1, (c.resolveA f v).2.2)
  | .rejectA e => ((c.rejectA f e).1, (c.rejectA f e).2.2)
  | .cancelA => ((c.cancelA).1, [])
  | .cancelB => ((c.cancelB).1, [])
  | .addCbB => c.addCbB

/-- Run a list of protocol steps, concatenating the emitted invocations. -/
def ThenChain.run {T E U F : Type} (f : Settlement T E → Result U F)
    (c : ThenChain T E U F) : List (ChainOp T E) → ThenChain T E U F × List ChainEvent
  | [] => (c, [])
  | op :: rest =>
      ((((c.step f op).1).run f rest).1, (c.step f op).2 ++ (((c.step f op).1).run f rest).2)

/-- The shared context of MkAllPromise (lines 652-663): the success counter
and the positional result vector, initialised to n default elements. -/
structure AllCtx (T : Type) where
  counter : Nat
  results : List T
deriving DecidableEq

/-- The per-input Then callback of MkAllPromise (lines 666-690), fired when
input idx settles with payload: an error rejects the output at once; a value
is stored positionally, the counter is pre-decremented, and when it reaches
zero the output is resolved with the vector. -/
def mkAllStep {T E : Type} (st : AllCtx T × PState (List T) E Unit)
    (ev : Nat × Settlement T E) : AllCtx T × PState (List T) E Unit :=
  match ev.2 with
  | .error e => (st.1, (rejectOp st.2 e).1)
  | .value v =>
      let results := st.1.results.set ev.1 v
      let counter := st.1.counter - 1
      if 0 < counter then (⟨counter, results⟩, st.2)
      else (⟨counter, results⟩, (resolveOp st.2 results).1)

/-- MkAllPromise before any input settles (lines 639-665): an empty input is
resolved immediately with the empty vector; otherwise the context starts with
counter n and n default-constructed results and the output is Init. -/
def mkAllInit {T E : Type} [Inhabited T] (n : Nat) : AllCtx T × PState (List T) E Unit :=
  if n = 0 then (⟨0, []⟩, (resolveOp (initPState : PState (List T) E Unit) []).1)
  else (⟨n, List.replicate n default⟩, initPState)

/-- Run MkAllPromise over a settlement schedule: each event is one input
settling, given as the input position paired with its payload, in settlement
order. -/
def runMkAll {T E : Type} [Inhabited T] (n : Nat)
    (evs : List (Nat × Settlement T E)) : AllCtx T × PState (List T) E Unit :=
  evs.foldl mkAllStep (mkAllInit n)

/-- A schedule is complete for n inputs when every input position settles
exactly once. -/
def completeFor {T E : Type} (n : Nat) (evs : List (Nat × Settlement T E)) : Prop :=
  (evs.map Prod.fst).Perm (List.range n)

/-- The shared context of MkAnyPromise (lines 710-715): the failure counter
and the positional error vector, initialised to n default elements. -/
structure AnyCtx (E : Type) where
  counter : Nat
  errors : List E
deriving DecidableEq

/-- The per-input Then callback of MkAnyPromise (lines 718-739): a value
resolves the output at once; an error is stored positionally, the counter is
pre-decremented, and when it reaches zero the output is rejected with the
error vector. -/
def mkAnyStep {T E : Type} (st : AnyCtx E × PState T (List E) Unit)
    (ev : Nat × Settlement T E) : AnyCtx E × PState T (List E) Unit :=
  match ev.2 with
  | .value v => (st.1, (resolveOp st.2 v).1)
  | .error e =>
      let errors := st.1.errors.set ev.1 e
      let counter := st.1.counter - 1
      if counter = 0 then (⟨counter, errors⟩, (rejectOp st.2 errors).1)
      else (⟨counter, errors⟩, st.2)

/-- MkAnyPromise before any input settles (lines 705-717); the source asserts
that the input is non-empty. -/
def mkAnyInit {T E : Type} [Inhabited E] (n : Nat) : AnyCtx E × PState T (List E) Unit :=
  (⟨n, List.replicate n default⟩, initPState)

/-- Run MkAnyPromise over a settlement schedule. -/
def runMkAny {T E : Type} [Inhabited E] (n : Nat)
    (evs : List (Nat × Settlement T E)) : AnyCtx E × PState T (List E) Unit :=
  evs.foldl mkAnyStep (mkAnyInit n)

/-- Operations on a single promise state; delivery runs inside resolve,
reject and addCallback and is also listed as the standalone entry point. -/
inductive PromiseOp (T E G : Type) where
  | resolve (v : T)
  | reject (e : E)
  | cancel
  | addCallback (c : G)
  | deliver

/-- Apply one operation to a state. -/
def stepOp {T E G : Type} (s : PState T E G) (op : PromiseOp T E G) : PState T E G :=
  match op with
  | .resolve v => (resolveOp s v).1
  | .reject e => (rejectOp s e).1
  | .cancel => (cancelOp s).1
  | .addCallback c => (addCallbackOp s c).1
  | .deliver => (tryInvokeCallback s).1

/-- Apply a sequence of operations to a state. -/
def runOps {T E G : Type} (s : PState T E G) (ops : List (PromiseOp T E G)) : PState T E G :=
  ops.foldl stepOp s

/-- The status transitions the protocol allows: the two monotonic settle
paths, Init to PreResolved to Resolved and Init to PreRejected to Rejected,
plus cancellation from the three non-terminal statuses. -/
inductive StatusEdge : PromiseStatus → PromiseStatus → Prop where
  | initPreResolved : StatusEdge .kInit .kPreResolved
  | initPreRejected : StatusEdge .kInit .kPreRejected
  | deliverResolved : StatusEdge .kPreResolved .kResolved
  | deliverRejected : StatusEdge .kPreRejected .kRejected
  | cancelFromInit : StatusEdge .kInit .kCancelled
  | cancelFromPreResolved : StatusEdge .kPreResolved .kCancelled
  | cancelFromPreRejected : StatusEdge .kPreRejected .kCancelled

/-- A state not in Init is left unchanged by Resolve. -/
lemma resolveOp_not_init {T E G : Type} (s : PState T E G) (v : T)
    (h : s.status ≠ .kInit) : resolveOp s v = (s, false, none) := by
  simp [resolveOp, h]

/-- A state not in Init is left unchanged by Reject. -/
lemma rejectOp_not_init {T E G : Type} (s : PState T E G) (e : E)
    (h : s.status ≠ .kInit) : rejectOp s e = (s, false, none) := by
  simp [rejectOp, h]

/-- Claim C8: Promise::IsPending is true exactly on PreResolved and
PreRejected and false on Init and every terminal status, and the await_ready
of PromiseAwaiter returns exactly IsPending, so a coroutine awaiting an
already settled but undelivered promise sees ready = true and does not
suspend. -/
theorem isPending_iff_settled_undelivered (st : PromiseStatus) :
    (Promise.IsPending st = true ↔ (st = .kPreResolved ∨ st = .kPreRejected)) ∧
    PromiseAwaiter.await_ready st = Promise.IsPending st := by
  cases st <;> exact ⟨by decide, rfl⟩

/-- Witness for C8 at a concrete settled-but-undelivered status. -/
theorem isPending_iff_settled_undelivered_witness :
    Promise.IsPending .kPreResolved = true ∧ Promise.IsPending .kInit ≠ true := by
  constructor
  · exact (isPending_iff_settled_undelivered .kPreResolved).1.mpr (Or.inl rfl)
  · intro h
    rcases (isPending_iff_settled_undelivered .kInit).1.mp h with h1 | h1 <;> cases h1

/-- Claim C9: for every Result<void,E> value, IsValue returns false, also
when no error is carried; consequently the coroutine adapter return_value for
Result<void,E> resolves exactly when IsValue is false, that is, it always
takes the Resolve branch and never rejects, also when the result carries an
error. -/
theorem resultVoid_isValue_false_always_resolves {E G : Type}
    (r : ResultVoid E) (s : PState Unit E G) :
    r.IsValue = false ∧
    returnValueVoid s r = some ((resolveOp s ()).1, (resolveOp s ()).2.1) := by
  exact ⟨rfl, by simp [returnValueVoid, ResultVoid.IsValue]⟩

/-- Witness for C9 at a concrete error-carrying result and an Init state: the
outer promise is resolved, not rejected. -/
theorem resultVoid_isValue_false_always_resolves_witness :
    ResultVoid.IsValue (⟨some "boom"⟩ : ResultVoid String) = false ∧
    returnValueVoid (initPState : PState Unit String Unit) ⟨some "boom"⟩ =
      some ((resolveOp (initPState : PState Unit String Unit) ()).1,
        (resolveOp (initPState : PState Unit String Unit) ()).2.1) :=
  resultVoid_isValue_false_always_resolves ⟨some "boom"⟩ initPState

/-- Claim C1 (code bug): PropagateResult does not dispatch on the variant of
the Result returned by the continuation. On a value it resolves the
downstream state, but on an error it never takes the Reject branch: the
pointer test is always true and the access to the value alternative is
undefined behavior, modelled as none, whereas a genuine rejection would move
an Init downstream state to PreRejected. At chain level, resolving A with a
continuation that returns an error Result leaves B unsettled and raises the
undefined-behavior flag instead of rejecting B. -/
theorem propagateResult_ignores_error_variant :
    PromiseState.PropagateResult (initPState : PState Nat String Unit) (Result.value 7) =
      some (resolveOp initPState 7) ∧
    PromiseState.PropagateResult (initPState : PState Nat String Unit)
      (Result.error "boom") = none ∧
    (rejectOp (initPState : PState Nat String Unit) "boom").1.status = .kPreRejected ∧
    (ThenChain.resolveA (fun _ => Result.error "boom")
      (ThenChain.init : ThenChain Nat String Nat String) 5).1.ub = true ∧
    (ThenChain.resolveA (fun _ => Result.error "boom")
      (ThenChain.init : ThenChain Nat String Nat String) 5).1.b.status = .kInit := by
  refine ⟨rfl, rfl, by decide, ?_, ?_⟩ <;> rfl

/-- Claim C2: Resolve and Reject on a promise state, and Resolver.Resolve and
Resolver.Reject on a live state, return true exactly when the status was Init
at the moment of the call; on a non-Init status they return false and leave
the state, hence its status, storage and callback, unchanged. -/
theorem resolve_reject_true_iff_init {T E G : Type} (s : PState T E G) (v : T) (e : E) :
    ((resolveOp s v).2.1 = true ↔ s.status = .kInit) ∧
    ((rejectOp s e).2.1 = true ↔ s.status = .kInit) ∧
    (s.status ≠ .kInit → (resolveOp s v).1 = s ∧ (rejectOp s e).1 = s) ∧
    Resolver.Resolve (some s) v = (some (resolveOp s v).1, (resolveOp s v).2.1) ∧
    Resolver.Reject (some s) e = (some (rejectOp s e).1, (rejectOp s e).2.1) := by
  refine ⟨?_, ?_, ?_, rfl, rfl⟩
  · by_cases h : s.status = .kInit <;> simp [resolveOp, h]
  · by_cases h : s.status = .kInit <;> simp [rejectOp, h]
  · intro h
    rw [resolveOp_not_init s v h, rejectOp_not_init s e h]
    exact ⟨rfl, rfl⟩

/-- Witness for C2: on an Init state Resolve returns true; on a Resolved
state Resolve returns false and the state is unchanged. -/
theorem resolve_reject_true_iff_init_witness :
    (resolveOp (initPState : PState Nat String Unit) 5).2.1 = true ∧
    (resolveOp (⟨.kResolved, none, none⟩ : PState Nat String Unit) 5).1 =
      (⟨.kResolved, none, none⟩ : PState Nat String Unit) := by
  constructor
  · exact (resolve_reject_true_iff_init initPState 5 "e").1.mpr rfl
  · exact ((resolve_reject_true_iff_init (⟨.kResolved, none, none⟩ : PState Nat String Unit)
      5 "e").2.2.1 (by decide)).1

/-- Claim C10: the boolean returned by Cancel reports the outcome of
cancelling the downstream tail, not the receiver: a cancellable state with a
terminal downstream still becomes Cancelled with callback and storage
cleared, the downstream is unchanged, and the call returns false; with no
downstream the call returns true. -/
theorem cancel_returns_tail_outcome {T E G U F D : Type}
    (s : PState T E G) (t : PState U F D) (hs : cancellable s.status = true) :
    (terminalStatus t.status = true →
      PromiseStateBase.CancelWithNext s (some t) =
        (((⟨.kCancelled, none, none⟩ : PState T E G), some t), false)) ∧
    PromiseStateBase.CancelWithNext s (none : Option (PState U F D)) =
      (((⟨.kCancelled, none, none⟩ : PState T E G), none), true) := by
  constructor
  · intro ht
    have hnc : cancellable t.status = false := by
      cases h : t.status <;> simp [terminalStatus, h] at ht ⊢ <;> rfl
    simp [PromiseStateBase.CancelWithNext, hs, cancelOp, hnc]
  · simp [PromiseStateBase.CancelWithNext, hs]

/-- Witness for C10: an Init state with a Resolved downstream is cancelled
but the call returns false; the same state with no downstream returns
true. -/
theorem cancel_returns_tail_outcome_witness :
    PromiseStateBase.CancelWithNext (initPState : PState Nat String Unit)
      (some (⟨.kResolved, none, none⟩ : PState Nat String Unit)) =
      (((⟨.kCancelled, none, none⟩ : PState Nat String Unit),
        some (⟨.kResolved, none, none⟩ : PState Nat String Unit)), false) ∧
    PromiseStateBase.CancelWithNext (initPState : PState Nat String Unit)
      (none : Option (PState Nat String Unit)) =
      (((⟨.kCancelled, none, none⟩ : PState Nat String Unit), none), true) := by
  constructor
  · exact (cancel_returns_tail_outcome initPState
      (⟨.kResolved, none, none⟩ : PState Nat String Unit) (by decide)).1 (by decide)
  · exact (cancel_returns_tail_outcome initPState
      (⟨.kResolved, none, none⟩ : PState Nat String Unit) (by decide)).2

/-- TryInvokeCallback leaves the state unchanged, or delivers PreResolved to
Resolved, or delivers PreRejected to Rejected. -/
lemma tryInvoke_cases {T E G : Type} (s : PState T E G) :
    (tryInvokeCallback s).1 = s ∨
    (s.status = .kPreResolved ∧ (tryInvokeCallback s).1 = ⟨.kResolved, none, none⟩) ∨
    (s.status = .kPreRejected ∧ (tryInvokeCallback s).1 = ⟨.kRejected, none, none⟩) := by
  rcases hc : s.cb with _ | c <;> rcases hst : s.storage with _ | val <;>
    simp [tryInvokeCallback, hc, hst]
  by_cases h1 : s.status = .kPreResolved
  · simp [h1]
  · by_cases h2 : s.status = .kPreRejected <;> simp [h1, h2]

/-- Each operation moves the status along the allowed edges only. -/
lemma stepOp_edge {T E G : Type} (t : PState T E G) (op : PromiseOp T E G) :
    Relation.ReflTransGen StatusEdge t.status (stepOp t op).status := by
  cases op with
  | resolve v =>
      by_cases h : t.status = .kInit
      · show Relation.ReflTransGen StatusEdge t.status (resolveOp t v).1.status
        rw [resolveOp, if_pos h]
        rcases tryInvoke_cases (⟨.kPreResolved, some (.value v), t.cb⟩ : PState T E G) with
          h1 | ⟨_, h1⟩ | ⟨h1, _⟩
        · rw [h1, h]
          exact Relation.ReflTransGen.single StatusEdge.initPreResolved
        · rw [h1, h]
          exact Relation.ReflTransGen.head StatusEdge.initPreResolved
            (Relation.ReflTransGen.single StatusEdge.deliverResolved)
        · cases h1
      · show Relation.ReflTransGen StatusEdge t.status (resolveOp t v).1.status
        rw [resolveOp_not_init t v h]
  | reject e =>
      by_cases h : t.status = .kInit
      · show Relation.ReflTransGen StatusEdge t.status (rejectOp t e).1.status
        rw [rejectOp, if_pos h]
        rcases tryInvoke_cases (⟨.kPreRejected, some (.error e), t.cb⟩ : PState T E G) with
          h1 | ⟨h1, _⟩ | ⟨_, h1⟩
        · rw [h1, h]
          exact Relation.ReflTransGen.single StatusEdge.initPreRejected
        · cases h1
        · rw [h1, h]
          exact Relation.ReflTransGen.head StatusEdge.initPreRejected
            (Relation.ReflTransGen.single StatusEdge.deliverRejected)
      · show Relation.ReflTransGen StatusEdge t.status (rejectOp t e).1.status
        rw [rejectOp_not_init t e h]
  | cancel =>
      show Relation.ReflTransGen StatusEdge t.status (cancelOp t).1.status
      by_cases h : cancellable t.status = true
      · rw [cancelOp, if_pos h]
        cases hst : t.status <;> rw [hst] at h <;> first
          | exact Relation.ReflTransGen.single StatusEdge.cancelFromInit
          | exact Relation.ReflTransGen.single StatusEdge.cancelFromPreResolved
          | exact Relation.ReflTransGen.single StatusEdge.cancelFromPreRejected
          | cases h
      · rw [cancelOp, if_neg h]
  | addCallback c =>
      show Relation.ReflTransGen StatusEdge t.status (addCallbackOp t c).1.status
      rw [addCallbackOp]
      rcases tryInvoke_cases (⟨t.status, t.storage, some c⟩ : PState T E G) with
        h1 | ⟨h1, h2⟩ | ⟨h1, h2⟩
      · rw [h1]
      · rw [h2, h1]
        exact Relation.ReflTransGen.single StatusEdge.deliverResolved
      · rw [h2, h1]
        exact Relation.ReflTransGen.single StatusEdge.deliverRejected
  | deliver =>
      show Relation.ReflTransGen StatusEdge t.status (tryInvokeCallback t).1.status
      rcases tryInvoke_cases t with h1 | ⟨h1, h2⟩ | ⟨h1, h2⟩
      · rw [h1]
      · rw [h2, h1]
        exact Relation.ReflTransGen.single StatusEdge.deliverResolved
      · rw [h2, h1]
        exact Relation.ReflTransGen.single StatusEdge.deliverRejected

/-- A whole operation sequence moves the status along the allowed edges. -/
lemma runOps_edge {T E G : Type} :
    ∀ (ops : List (PromiseOp T E G)) (s : PState T E G),
      Relation.ReflTransGen StatusEdge s.status (runOps s ops).status
  | [], _ => Relation.ReflTransGen.refl
  | op :: rest, s =>
      Relation.ReflTransGen.trans (stepOp_edge s op) (runOps_edge rest (stepOp s op))

/-- A step that lands on Cancelled started from Cancelled itself or from a
cancellable status. -/
lemma stepOp_cancelled_source {T E G : Type} (t : PState T E G) (op : PromiseOp T E G)
    (h : (stepOp t op).status = .kCancelled) :
    t.status = .kCancelled ∨ cancellable t.status = true := by
  cases op with
  | resolve v =>
      by_cases hi : t.status = .kInit
      · exact Or.inr (by rw [hi]; rfl)
      · left
        rw [show stepOp t (.resolve v) = (resolveOp t v).1 from rfl,
          resolveOp_not_init t v hi] at h
        exact h
  | reject e =>
      by_cases hi : t.status = .kInit
      · exact Or.inr (by rw [hi]; rfl)
      · left
        rw [show stepOp t (.reject e) = (rejectOp t e).1 from rfl,
          rejectOp_not_init t e hi] at h
        exact h
  | cancel =>
      by_cases hc : cancellable t.status = true
      · exact Or.inr hc
      · left
        rw [show stepOp t .cancel = (cancelOp t).1 from rfl, cancelOp, if_neg hc] at h
        exact h
  | addCallback c =>
      rw [show stepOp t (.addCallback c) = (addCallbackOp t c).1 from rfl,
        addCallbackOp] at h
      rcases tryInvoke_cases (⟨t.status, t.storage, some c⟩ : PState T E G) with
        h1 | ⟨_, h2⟩ | ⟨_, h2⟩
      · left
        rw [h1] at h
        exact h
      · rw [h2] at h
        cases h
      · rw [h2] at h
        cases h
  | deliver =>
      rcases tryInvoke_cases t with h1 | ⟨_, h2⟩ | ⟨_, h2⟩
      · left
        rw [show stepOp t .deliver = (tryInvokeCallback t).1 from rfl, h1] at h
        exact h
      · rw [show stepOp t .deliver = (tryInvokeCallback t).1 from rfl, h2] at h
        cases h
      · rw [show stepOp t .deliver = (tryInvokeCallback t).1 from rfl, h2] at h
        cases h

/-- Claim C3: over any sequence of operations the status only moves along the
two monotonic paths Init-PreResolved-Resolved and Init-PreRejected-Rejected
or cancels; every single step landing on Cancelled starts from Init,
PreResolved or PreRejected; and every allowed edge into Cancelled starts from
a cancellable status, so no other transition ever occurs. -/
theorem status_transitions_monotone {T E G : Type} (s : PState T E G)
    (ops : List (PromiseOp T E G)) :
    Relation.ReflTransGen StatusEdge s.status (runOps s ops).status ∧
    (∀ (t : PState T E G) (op : PromiseOp T E G),
      (stepOp t op).status = .kCancelled →
        t.status = .kCancelled ∨ cancellable t.status = true) ∧
    (∀ x y, StatusEdge x y → y = .kCancelled → cancellable x = true) := by
  refine ⟨runOps_edge ops s, stepOp_cancelled_source, ?_⟩
  intro x y hxy _
  cases hxy <;> rfl

/-- Witness for C3 on a concrete state and operation sequence; the second
conjunct applies the cancellation clause at a concrete step whose hypothesis
is discharged by evaluation. -/
theorem status_transitions_monotone_witness :
    Relation.ReflTransGen StatusEdge .kInit
      (runOps (initPState : PState Nat String Unit)
        [PromiseOp.resolve 3, PromiseOp.addCallback ()]).status ∧
    ((initPState : PState Nat String Unit).status = .kCancelled ∨
      cancellable (initPState : PState Nat String Unit).status = true) := by
  constructor
  · exact (status_transitions_monotone (initPState : PState Nat String Unit)
      [PromiseOp.resolve 3, PromiseOp.addCallback ()]).1
  · exact (status_transitions_monotone (initPState : PState Nat String Unit) []).2.1
      initPState .cancel (by decide)

/-- On a status that is neither PreResolved nor PreRejected, TryInvokeCallback
changes nothing and hands off no delivery. -/
lemma tryInvoke_none_not_pre {T E G : Type} (s : PState T E G)
    (h1 : s.status ≠ .kPreResolved) (h2 : s.status ≠ .kPreRejected) :
    tryInvokeCallback s = (s, none) := by
  rcases hc : s.cb with _ | c <;> rcases hst : s.storage with _ | val <;>
    simp [tryInvokeCallback, hc, hst, h1, h2]

/-- Case analysis of Resolve: not Init, or Init without a callback, or Init
with a callback and an immediate delivery. -/
lemma resolveOp_cases {T E G : Type} (s : PState T E G) (v : T) :
    (s.status ≠ .kInit ∧ resolveOp s v = (s, false, none)) ∨
    (s.status = .kInit ∧ s.cb = none ∧
      resolveOp s v = (⟨.kPreResolved, some (.value v), none⟩, true, none)) ∨
    (s.status = .kInit ∧ ∃ c, s.cb = some c ∧
      resolveOp s v = (⟨.kResolved, none, none⟩, true, some (c, .value v))) := by
  by_cases h : s.status = .kInit
  · rcases hc : s.cb with _ | c
    · exact Or.inr (Or.inl ⟨h, rfl, by simp [resolveOp, h, hc, tryInvokeCallback]⟩)
    · exact Or.inr (Or.inr ⟨h, c, rfl, by simp [resolveOp, h, hc, tryInvokeCallback]⟩)
  · exact Or.inl ⟨h, resolveOp_not_init s v h⟩

/-- Case analysis of Reject, mirroring resolveOp_cases. -/
lemma rejectOp_cases {T E G : Type} (s : PState T E G) (e : E) :
    (s.status ≠ .kInit ∧ rejectOp s e = (s, false, none)) ∨
    (s.status = .kInit ∧ s.cb = none ∧
      rejectOp s e = (⟨.kPreRejected, some (.error e), none⟩, true, none)) ∨
    (s.status = .kInit ∧ ∃ c, s.cb = some c ∧
      rejectOp s e = (⟨.kRejected, none, none⟩, true, some (c, .error e))) := by
  by_cases h : s.status = .kInit
  · rcases hc : s.cb with _ | c
    · exact Or.inr (Or.inl ⟨h, rfl, by simp [rejectOp, h, hc, tryInvokeCallback]⟩)
    · exact Or.inr (Or.inr ⟨h, c, rfl, by simp [rejectOp, h, hc, tryInvokeCallback]⟩)
  · exact Or.inl ⟨h, rejectOp_not_init s e h⟩

/-- Propagation into B never touches A. -/
lemma propagateIntoB_a {T E U F : Type} (c : ThenChain T E U F) (r : Result U F) :
    (propagateIntoB c r).1.a = c.a := by
  rcases r with _ | v | e <;> simp [propagateIntoB, PromiseState.PropagateResult]

/-- Cancel on a cancellable single state. -/
lemma cancelOp_pos {T E G : Type} (s : PState T E G) (h : cancellable s.status = true) :
    cancelOp s = ((⟨.kCancelled, none, none⟩ : PState T E G), true) := by
  simp [cancelOp, h]

/-- Cancel on a non-cancellable single state. -/
lemma cancelOp_neg {T E G : Type} (s : PState T E G) (h : cancellable s.status = false) :
    cancelOp s = (s, false) := by
  simp [cancelOp, h]

/-- The chain protocol invariant: without undefined behavior, while A is
still cancellable, B has not been settled, it is Init or already
Cancelled. One protocol step preserves it. -/
lemma chain_step_inv {T E U F : Type} (f : Settlement T E → Result U F)
    (c : ThenChain T E U F) (op : ChainOp T E)
    (hinv : c.ub = false → cancellable c.a.status = true →
      (c.b.status = .kInit ∨ c.b.status = .kCancelled)) :
    (c.step f op).1.ub = false → cancellable (c.step f op).1.a.status = true →
      ((c.step f op).1.b.status = .kInit ∨ (c.step f op).1.b.status = .kCancelled) := by
  rcases c with ⟨a, b, ub⟩
  cases op with
  | resolveA v =>
      simp only [ThenChain.step]
      rcases resolveOp_cases a v with ⟨hne, heq⟩ | ⟨hi, hcb, heq⟩ | ⟨hi, cc, hcb, heq⟩
      · simp only [ThenChain.resolveA, heq]
        exact hinv
      · intro hu hc
        simp only [ThenChain.resolveA, heq] at hu hc ⊢
        exact hinv hu (by rw [hi]; rfl)
      · intro hu hc
        simp only [ThenChain.resolveA, heq] at hu hc ⊢
        rw [propagateIntoB_a] at hc
        exact absurd (show cancellable PromiseStatus.kResolved = true from hc) (by decide)
  | rejectA e =>
      simp only [ThenChain.step]
      rcases rejectOp_cases a e with ⟨hne, heq⟩ | ⟨hi, hcb, heq⟩ | ⟨hi, cc, hcb, heq⟩
      · simp only [ThenChain.rejectA, heq]
        exact hinv
      · intro hu hc
        simp only [ThenChain.rejectA, heq] at hu hc ⊢
        exact hinv hu (by rw [hi]; rfl)
      · intro hu hc
        simp only [ThenChain.rejectA, heq] at hu hc ⊢
        rw [propagateIntoB_a] at hc
        exact absurd (show cancellable PromiseStatus.kRejected = true from hc) (by decide)
  | cancelA =>
      simp only [ThenChain.step, ThenChain.cancelA]
      by_cases h : cancellable a.status = true
      · intro hu hc
        rw [if_pos h] at hc
        exact absurd (show cancellable PromiseStatus.kCancelled = true from hc) (by decide)
      · rw [if_neg h]
        exact hinv
  | cancelB =>
      simp only [ThenChain.step, ThenChain.cancelB]
      intro hu hc
      rcases hinv hu hc with hb | hb
      · right
        rw [cancelOp_pos b (by rw [hb]; rfl)]
      · right
        rw [cancelOp_neg b (by rw [hb]; rfl)]
        exact hb
  | addCbB =>
      simp only [ThenChain.step, ThenChain.addCbB, addCallbackOp]
      intro hu hc
      rcases hinv hu hc with hb | hb <;>
        rw [tryInvoke_none_not_pre (⟨b.status, b.storage, some ()⟩ : PState U F Unit)
          (by rw [hb]; exact fun h => by cases h) (by rw [hb]; exact fun h => by cases h)]
      · exact Or.inl hb
      · exact Or.inr hb

/-- The chain protocol invariant holds along every run from a Then-built
chain. -/
lemma chain_run_inv {T E U F : Type} (f : Settlement T E → Result U F) :
    ∀ (ops : List (ChainOp T E)) (c : ThenChain T E U F),
      (c.ub = false → cancellable c.a.status = true →
        (c.b.status = .kInit ∨ c.b.status = .kCancelled)) →
      ((c.run f ops).1.ub = false → cancellable (c.run f ops).1.a.status = true →
        ((c.run f ops).1.b.status = .kInit ∨ (c.run f ops).1.b.status = .kCancelled))
  | [], _, hinv => hinv
  | op :: rest, c, hinv =>
      chain_run_inv f rest ((c.step f op).1) (chain_step_inv f c op hinv)

/-- Once both ends of the chain are Cancelled, every further protocol step
keeps them Cancelled and performs no callback invocation. -/
lemma chain_step_both_cancelled {T E U F : Type} (f : Settlement T E → Result U F)
    (c : ThenChain T E U F) (op : ChainOp T E)
    (ha : c.a.status = .kCancelled) (hb : c.b.status = .kCancelled) :
    (c.step f op).1.a.status = .kCancelled ∧ (c.step f op).1.b.status = .kCancelled ∧
    (c.step f op).2 = [] := by
  rcases c with ⟨a, b, ub⟩
  simp only at ha hb
  have hbne : cancellable b.status = false := by rw [hb]; rfl
  cases op with
  | resolveA v =>
      have heq := resolveOp_not_init a v (by rw [ha]; exact fun h => by cases h)
      exact ⟨by simp [ThenChain.step, ThenChain.resolveA, heq, ha],
        by simp [ThenChain.step, ThenChain.resolveA, heq, hb],
        by simp [ThenChain.step, ThenChain.resolveA, heq]⟩
  | rejectA e =>
      have heq := rejectOp_not_init a e (by rw [ha]; exact fun h => by cases h)
      exact ⟨by simp [ThenChain.step, ThenChain.rejectA, heq, ha],
        by simp [ThenChain.step, ThenChain.rejectA, heq, hb],
        by simp [ThenChain.step, ThenChain.rejectA, heq]⟩
  | cancelA =>
      have hane : cancellable a.status = false := by rw [ha]; rfl
      refine ⟨?_, ?_, rfl⟩ <;>
        simp only [ThenChain.step, ThenChain.cancelA, ha, hane] <;>
        rw [if_neg (by decide)]
      · exact ha
      · exact hb
  | cancelB =>
      exact ⟨ha, by simp [ThenChain.step, ThenChain.cancelB, cancelOp_neg b hbne, hb], rfl⟩
  | addCbB =>
      have heq := tryInvoke_none_not_pre
        (⟨PromiseStatus.kCancelled, b.storage, some ()⟩ : PState U F Unit)
        (fun h => by cases h) (fun h => by cases h)
      exact ⟨ha, by simp [ThenChain.step, ThenChain.addCbB, addCallbackOp, hb, heq],
        by simp [ThenChain.step, ThenChain.addCbB, addCallbackOp, hb, heq]⟩

/-- Once both ends are Cancelled, a whole run emits no callback invocation at
all. -/
lemma chain_run_both_cancelled {T E U F : Type} (f : Settlement T E → Result U F) :
    ∀ (ops : List (ChainOp T E)) (c : ThenChain T E U F),
      c.a.status = .kCancelled → c.b.status = .kCancelled → (c.run f ops).2 = []
  | [], _, _, _ => rfl
  | op :: rest, c, ha, hb => by
      obtain ⟨ha', hb', hev⟩ := chain_step_both_cancelled f c op ha hb
      show (c.step f op).2 ++ (((c.step f op).1).run f rest).2 = []
      rw [hev, chain_run_both_cancelled f rest ((c.step f op).1) ha' hb']
      rfl

/-- Claim C4: on any chain built by Then and driven by the chain protocol,
cancelling A while A is Init, PreResolved or PreRejected (and no propagation
has hit the undefined-behavior path) leaves both A and B Cancelled, with the
callback and storage of A dropped, and no callback of A or B is ever invoked
afterwards: a cancelled state never invokes its callback. -/
theorem chain_cancelA_cancels_b {T E U F : Type} (f : Settlement T E → Result U F)
    (ops : List (ChainOp T E))
    (hub : ((ThenChain.init.run f ops).1 : ThenChain T E U F).ub = false)
    (hc : cancellable ((ThenChain.init.run f ops).1 : ThenChain T E U F).a.status = true) :
    ((((ThenChain.init.run f ops).1 : ThenChain T E U F).cancelA).1.a.status = .kCancelled) ∧
    ((((ThenChain.init.run f ops).1 : ThenChain T E U F).cancelA).1.b.status = .kCancelled) ∧
    ((((ThenChain.init.run f ops).1 : ThenChain T E U F).cancelA).1.a.cb = none) ∧
    ((((ThenChain.init.run f ops).1 : ThenChain T E U F).cancelA).1.a.storage = none) ∧
    (∀ more : List (ChainOp T E),
      (((((ThenChain.init.run f ops).1 : ThenChain T E U F).cancelA).1).run f more).2 = []) := by
  have hinv0 : (ThenChain.init : ThenChain T E U F).ub = false →
      cancellable (ThenChain.init : ThenChain T E U F).a.status = true →
      ((ThenChain.init : ThenChain T E U F).b.status = .kInit ∨
        (ThenChain.init : ThenChain T E U F).b.status = .kCancelled) :=
    fun _ _ => Or.inl rfl
  have hb := chain_run_inv f ops ThenChain.init hinv0 hub hc
  rcases hca : (ThenChain.init.run f ops).1 with ⟨a, b, ub⟩
  rw [hca] at hb hc
  have hcanA : ThenChain.cancelA (⟨a, b, ub⟩ : ThenChain T E U F) =
      (⟨⟨.kCancelled, none, none⟩, (cancelOp b).1, ub⟩, (cancelOp b).2) := by
    simp only [ThenChain.cancelA]
    rw [if_pos hc]
  have hbstat : (cancelOp b).1.status = .kCancelled := by
    rcases hb with hb | hb
    · rw [cancelOp_pos b (by rw [hb]; rfl)]
    · rw [cancelOp_neg b (by rw [hb]; rfl)]
      exact hb
  refine ⟨by rw [hcanA], by rw [hcanA]; exact hbstat, by rw [hcanA], by rw [hcanA], ?_⟩
  intro more
  rw [hcanA]
  exact chain_run_both_cancelled f more _ rfl hbstat

/-- Witness for C4: cancelling the freshly built chain cancels both ends and
a subsequent resolve attempt invokes no callback. -/
theorem chain_cancelA_cancels_b_witness :
    ((((ThenChain.init.run (fun _ => Result.value 0) []).1 :
        ThenChain Nat String Nat String).cancelA).1.a.status = .kCancelled) ∧
    ((((ThenChain.init.run (fun _ => Result.value 0) []).1 :
        ThenChain Nat String Nat String).cancelA).1.b.status = .kCancelled) ∧
    (((((ThenChain.init.run (fun _ => Result.value 0) []).1 :
        ThenChain Nat String Nat String).cancelA).1).run (fun _ => Result.value 0)
          [ChainOp.resolveA 7]).2 = [] := by
  obtain ⟨h1, h2, h3, h4, h5⟩ := chain_cancelA_cancels_b
    (fun _ => Result.value 0) ([] : List (ChainOp Nat String)) rfl rfl
  exact ⟨h1, h2, h5 [ChainOp.resolveA 7]⟩

/-- A list whose length and entries match an index function equals the mapped
range. -/
lemma eq_map_range {T : Type} (res : List T) (vals : Nat → T) (n : Nat)
    (hlen : res.length = n) (hget : ∀ i (h : i < res.length), res.get ⟨i, h⟩ = vals i) :
    res = (List.range n).map vals := by
  apply List.ext_get (by simp [hlen])
  intro i h1 h2
  rw [hget i h1]
  simp

/-- Any list containing an element failing a predicate splits at the first
failing element. -/
lemma exists_first_fail {α : Type} (P : α → Bool) :
    ∀ (l : List α), (∃ x ∈ l, P x = false) →
      ∃ pre x post, l = pre ++ x :: post ∧ (∀ y ∈ pre, P y = true) ∧ P x = false
  | [], h => by simp at h
  | a :: t, h => by
      by_cases ha : P a = false
      · exact ⟨[], a, t, rfl, by simp, ha⟩
      · have ha' : P a = true := by
          cases hpa : P a
          · exact absurd hpa ha
          · rfl
        have ht : ∃ x ∈ t, P x = false := by
          rcases h with ⟨x, hx, hPx⟩
          rcases List.mem_cons.1 hx with rfl | hx2
          · exact absurd hPx ha
          · exact ⟨x, hx2, hPx⟩
        obtain ⟨pre, x, post, heq, hpre, hPx⟩ := exists_first_fail P t ht
        refine ⟨a :: pre, x, post, by rw [heq]; rfl, ?_, hPx⟩
        intro y hy
        rcases List.mem_cons.1 hy with rfl | hy2
        · exact ha'
        · exact hpre y hy2

/-- A MkAll step never changes a settled output. -/
lemma mkAllStep_snd_settled {T E : Type} (st : AllCtx T × PState (List T) E Unit)
    (ev : Nat × Settlement T E) (h : st.2.status ≠ .kInit) :
    (mkAllStep st ev).2 = st.2 := by
  rcases ev with ⟨i, v | e⟩
  · simp only [mkAllStep]
    by_cases hc : 0 < st.1.counter - 1
    · rw [if_pos hc]
    · rw [if_neg hc]
      show (resolveOp st.2 _).1 = st.2
      rw [resolveOp_not_init _ _ h]
  · show (rejectOp st.2 e).1 = st.2
    rw [rejectOp_not_init _ _ h]

/-- A settled MkAll output absorbs every further settlement event. -/
lemma mkAll_fold_settled {T E : Type} :
    ∀ (evs : List (Nat × Settlement T E)) (st : AllCtx T × PState (List T) E Unit),
      st.2.status ≠ .kInit → (evs.foldl mkAllStep st).2 = st.2
  | [], _, _ => rfl
  | ev :: rest, st, h => by
      have h1 := mkAllStep_snd_settled st ev h
      show (rest.foldl mkAllStep (mkAllStep st ev)).2 = st.2
      rw [mkAll_fold_settled rest (mkAllStep st ev) (by rw [h1]; exact h), h1]

/-- A strictly short prefix of value events leaves the MkAll output untouched
and decrements the counter by its length. -/
lemma mkAll_fold_short_values {T E : Type} :
    ∀ (evs : List (Nat × Settlement T E)) (ctx : AllCtx T) (out : PState (List T) E Unit),
      (∀ p ∈ evs, p.2.isValue = true) → evs.length < ctx.counter →
      (evs.foldl mkAllStep (ctx, out)).2 = out ∧
      (evs.foldl mkAllStep (ctx, out)).1.counter = ctx.counter - evs.length
  | [], ctx, out, _, _ => ⟨rfl, by simp⟩
  | (i, s) :: rest, ctx, out, hall, hlen => by
      rcases s with v | e
      · have hpos : 0 < ctx.counter - 1 := by
          have := hlen
          simp only [List.length_cons] at this
          omega
        have hstep : mkAllStep (ctx, out) (i, Settlement.value v) =
            (⟨ctx.counter - 1, ctx.results.set i v⟩, out) := by
          simp only [mkAllStep]
          rw [if_pos hpos]
        have hlen2 : rest.length < ctx.counter - 1 := by
          simp only [List.length_cons] at hlen
          omega
        obtain ⟨h1, h2⟩ := mkAll_fold_short_values rest ⟨ctx.counter - 1, ctx.results.set i v⟩
          out (fun p hp => hall p (List.mem_cons_of_mem _ hp)) hlen2
        rw [List.foldl_cons, hstep]
        refine ⟨h1, ?_⟩
        rw [h2]
        simp only [List.length_cons]
        omega
      · have := hall (i, Settlement.error e) (List.mem_cons_self _ _)
        simp [Settlement.isValue] at this

/-- Folding a complete all-values schedule from a faithful context resolves
the MkAll output with the positional value vector. -/
lemma mkAll_fold_values {T E : Type} (n : Nat) (vals : Nat → T) :
    ∀ (evs : List (Nat × Settlement T E)) (rem : List Nat) (res : List T),
      (evs.map Prod.fst).Perm rem → rem ≠ [] → rem.Nodup → (∀ i ∈ rem, i < n) →
      (∀ p ∈ evs, p.2 = Settlement.value (vals p.1)) →
      res.length = n → (∀ i (h : i < res.length), i ∉ rem → res.get ⟨i, h⟩ = vals i) →
      (evs.foldl mkAllStep (⟨rem.length, res⟩, (initPState : PState (List T) E Unit))).2 =
        ⟨.kPreResolved, some (.value ((List.range n).map vals)), none⟩
  | [], rem, res, hperm, hne, _, _, _, _, _ => by
      rw [List.map_nil] at hperm
      exact absurd (List.perm_nil.1 hperm.symm) hne
  | (i, s) :: rest, rem, res, hperm, hne, hnd, hbound, hvals, hlen, hres => by
      have hs : s = Settlement.value (vals i) :=
        hvals (i, s) (List.mem_cons_self _ _)
      subst hs
      rw [List.map_cons] at hperm
      obtain ⟨hi, hperm'⟩ := List.cons_perm_iff_perm_erase.1 hperm
      have hin : i < n := hbound i hi
      have herlen : (rem.erase i).length = rem.length - 1 := List.length_erase_of_mem hi
      have hnotin : ∀ j, j ≠ i → j ∉ rem.erase i → j ∉ rem := by
        intro j hji hjer hjr
        exact hjer ((List.mem_erase_of_ne hji).2 hjr)
      have hset : ∀ j (h : j < (res.set i (vals i)).length), j ∉ rem.erase i →
          (res.set i (vals i)).get ⟨j, h⟩ = vals j := by
        intro j h hj
        by_cases hji : j = i
        · subst hji
          simp only [List.get_eq_getElem]
          rw [List.getElem_set]
          simp
        · simp only [List.get_eq_getElem]
          rw [List.getElem_set, if_neg (fun hh => hji hh.symm)]
          have h2 : j < res.length := by simpa using h
          exact hres j h2 (hnotin j hji hj)
      by_cases h0 : rem.erase i = []
      · have hrest : rest = [] := by
          rw [h0] at hperm'
          exact List.map_eq_nil_iff.1 (List.perm_nil.1 hperm')
        have hc0 : rem.length - 1 = 0 := by rw [← herlen, h0]; rfl
        have hstep : mkAllStep (⟨rem.length, res⟩, (initPState : PState (List T) E Unit))
            (i, Settlement.value (vals i)) =
            (⟨rem.length - 1, res.set i (vals i)⟩,
              (resolveOp (initPState : PState (List T) E Unit) (res.set i (vals i))).1) := by
          simp only [mkAllStep]
          rw [hc0]
          rfl
        show (rest.foldl mkAllStep _).2 = _
        rw [hrest, hstep]
        show (resolveOp (initPState : PState (List T) E Unit) (res.set i (vals i))).1 = _
        have hfin : res.set i (vals i) = (List.range n).map vals := by
          apply eq_map_range _ _ _ (by simpa using hlen)
          intro j h
          refine hset j h ?_
          rw [h0]
          exact List.not_mem_nil j
        rw [hfin]
        rfl
      · have hcpos : 0 < rem.length - 1 := by
          rw [← herlen]
          exact List.length_pos.2 h0
        have hstep : mkAllStep (⟨rem.length, res⟩, (initPState : PState (List T) E Unit))
            (i, Settlement.value (vals i)) =
            (⟨rem.length - 1, res.set i (vals i)⟩, (initPState : PState (List T) E Unit)) := by
          simp only [mkAllStep]
          rw [if_pos hcpos]
        show (rest.foldl mkAllStep _).2 = _
        rw [hstep, ← herlen]
        exact mkAll_fold_values n vals rest (rem.erase i) (res.set i (vals i)) hperm' h0
          (hnd.erase i) (fun j hj => hbound j (List.mem_of_mem_erase hj))
          (fun p hp => hvals p (List.mem_cons_of_mem _ hp)) (by simpa using hlen) hset

/-- Core of the MkAll rejection behavior: a complete schedule whose first
error is e leaves the output rejected with e, and the whole schedule and the
prefix ending at that first error produce the same output. -/
lemma mkAll_reject_core {T E : Type} [Inhabited T] (n : Nat)
    (evs pre post : List (Nat × Settlement T E)) (i : Nat) (e : E)
    (hcomp : completeFor n evs) (hsplit : evs = pre ++ (i, Settlement.error e) :: post)
    (hpre : ∀ p ∈ pre, p.2.isValue = true) :
    (runMkAll n evs).2 = ⟨.kPreRejected, some (.error e), none⟩ ∧
    (runMkAll n (pre ++ [(i, Settlement.error e)])).2 =
      ⟨.kPreRejected, some (.error e), none⟩ := by
  have hlen : evs.length = n := by
    have := hcomp.length_eq
    simpa using this
  have hprelen : pre.length < n := by
    rw [hsplit] at hlen
    simp only [List.length_append, List.length_cons] at hlen
    omega
  have hn : ¬ n = 0 := by omega
  have hinit : (mkAllInit n : AllCtx T × PState (List T) E Unit) =
      (⟨n, List.replicate n default⟩, initPState) := by
    simp only [mkAllInit]
    rw [if_neg hn]
  obtain ⟨hout, _⟩ := mkAll_fold_short_values pre ⟨n, List.replicate n default⟩
    (initPState : PState (List T) E Unit) hpre hprelen
  have hprefold : ∀ (tail : List (Nat × Settlement T E)),
      (runMkAll n (pre ++ (i, Settlement.error e) :: tail)).2 =
        ⟨.kPreRejected, some (.error e), none⟩ := by
    intro tail
    show ((pre ++ (i, Settlement.error e) :: tail).foldl mkAllStep (mkAllInit n)).2 = _
    rw [List.foldl_append, hinit]
    show (((i, Settlement.error e) :: tail).foldl mkAllStep _).2 = _
    rw [List.foldl_cons]
    have hstep : mkAllStep (pre.foldl mkAllStep (⟨n, List.replicate n default⟩,
        (initPState : PState (List T) E Unit))) (i, Settlement.error e) =
        ((pre.foldl mkAllStep (⟨n, List.replicate n default⟩,
          (initPState : PState (List T) E Unit))).1,
          (⟨.kPreRejected, some (.error e), none⟩ : PState (List T) E Unit)) := by
      show (_, (rejectOp _ e).1) = _
      rw [hout]
      rfl
    rw [hstep]
    exact mkAll_fold_settled tail _ (fun h => by cases h)
  constructor
  · rw [hsplit]
    exact hprefold post
  · have : pre ++ [(i, Settlement.error e)] = pre ++ (i, Settlement.error e) :: [] := rfl
    rw [this]
    exact hprefold []

/-- Claim C5: over a complete settlement schedule, MkAll resolves exactly
when every input resolves, and then the result vector holds the value of
input i at position i; a rejection in the schedule leaves the output rejected
instead; the empty input is immediately resolved with the empty vector. -/
theorem mkAll_resolves_iff_all_resolve {T E : Type} [Inhabited T] (n : Nat)
    (vals : Nat → T) (evs : List (Nat × Settlement T E)) (hcomp : completeFor n evs) :
    ((∀ p ∈ evs, p.2 = Settlement.value (vals p.1)) →
      (runMkAll n evs).2 =
        ⟨.kPreResolved, some (.value ((List.range n).map vals)), none⟩) ∧
    ((∃ p ∈ evs, p.2.isValue = false) → (runMkAll n evs).2.status = .kPreRejected) ∧
    ((runMkAll (T := T) (E := E) 0 []).2 = ⟨.kPreResolved, some (.value []), none⟩) := by
  refine ⟨?_, ?_, rfl⟩
  · intro hvals
    by_cases hn : n = 0
    · subst hn
      have hevs : evs = [] := by
        have := List.perm_nil.1 hcomp
        exact List.map_eq_nil_iff.1 this
      subst hevs
      rfl
    · have hinit : (mkAllInit n : AllCtx T × PState (List T) E Unit) =
          (⟨n, List.replicate n default⟩, initPState) := by
        simp only [mkAllInit]
        rw [if_neg hn]
      show (evs.foldl mkAllStep (mkAllInit n)).2 = _
      rw [hinit]
      have hlenr : ((List.range n).length : Nat) = n := List.length_range n
      have := mkAll_fold_values (E := E) n vals evs (List.range n)
        (List.replicate n default) hcomp
        (fun h => hn (List.range_eq_nil.1 h)) (List.nodup_range n)
        (fun i hi => List.mem_range.1 hi) hvals (List.length_replicate n default)
        (fun i h hi => absurd (List.mem_range.2 (by simpa using h)) hi)
      rwa [hlenr] at this
  · intro hfail
    obtain ⟨pre, x, post, hsplit, hpre, hP⟩ :=
      exists_first_fail (fun p => p.2.isValue) evs hfail
    rcases x with ⟨i, v | e⟩
    · simp [Settlement.isValue] at hP
    · obtain ⟨h1, _⟩ := mkAll_reject_core n evs pre post i e hcomp hsplit hpre
      rw [h1]

/-- Witness for C5 at a concrete out-of-order all-values schedule of two
inputs. -/
theorem mkAll_resolves_iff_all_resolve_witness :
    (runMkAll (E := String) 2 [(1, Settlement.value 20), (0, Settlement.value 10)]).2 =
      ⟨.kPreResolved, some (.value [10, 20]), none⟩ := by
  have := (mkAll_resolves_iff_all_resolve (E := String) 2 (fun i => 10 * (i + 1))
    [(1, Settlement.value 20), (0, Settlement.value 10)]
    (show ([1, 0] : List Nat).Perm (List.range 2) by decide)).1 (by decide)
  simpa using this

/-- Claim C6: over a complete schedule whose first rejection carries error e,
MkAll rejects with e, and every settlement after that first rejection leaves
the output unchanged, so the remaining results are discarded. -/
theorem mkAll_rejects_with_first_error {T E : Type} [Inhabited T] (n : Nat)
    (evs pre post : List (Nat × Settlement T E)) (i : Nat) (e : E)
    (hcomp : completeFor n evs) (hsplit : evs = pre ++ (i, Settlement.error e) :: post)
    (hpre : ∀ p ∈ pre, p.2.isValue = true) :
    (runMkAll n evs).2.status = .kPreRejected ∧
    (runMkAll n evs).2.storage = some (Settlement.error e) ∧
    (runMkAll n evs).2 = (runMkAll n (pre ++ [(i, Settlement.error e)])).2 := by
  obtain ⟨h1, h2⟩ := mkAll_reject_core n evs pre post i e hcomp hsplit hpre
  rw [h1, h2]
  exact ⟨rfl, rfl, rfl⟩

/-- Witness for C6: two inputs, the second input rejects first, then the
first input resolves; the output is rejected with the error of the second
input and equals the output right after that rejection. -/
theorem mkAll_rejects_with_first_error_witness :
    (runMkAll (T := Nat) 2 [(1, Settlement.error "boom"), (0, Settlement.value 5)]).2.status =
      .kPreRejected ∧
    (runMkAll (T := Nat) 2 [(1, Settlement.error "boom"), (0, Settlement.value 5)]).2.storage =
      some (Settlement.error "boom") ∧
    (runMkAll (T := Nat) 2 [(1, Settlement.error "boom"), (0, Settlement.value 5)]).2 =
      (runMkAll (T := Nat) 2 ([] ++ [(1, Settlement.error "boom")])).2 :=
  mkAll_rejects_with_first_error 2 [(1, Settlement.error "boom"), (0, Settlement.value 5)]
    [] [(0, Settlement.value 5)] 1 "boom"
    (show ([1, 0] : List Nat).Perm (List.range 2) by decide) rfl (by decide)

/-- A MkAny step never changes a settled output. -/
lemma mkAnyStep_snd_settled {T E : Type} (st : AnyCtx E × PState T (List E) Unit)
    (ev : Nat × Settlement T E) (h : st.2.status ≠ .kInit) :
    (mkAnyStep st ev).2 = st.2 := by
  rcases ev with ⟨i, v | e⟩
  · show (resolveOp st.2 v).1 = st.2
    rw [resolveOp_not_init _ _ h]
  · simp only [mkAnyStep]
    by_cases hc : st.1.counter - 1 = 0
    · rw [if_pos hc]
      show (rejectOp st.2 _).1 = st.2
      rw [rejectOp_not_init _ _ h]
    · rw [if_neg hc]

/-- A settled MkAny output absorbs every further settlement event. -/
lemma mkAny_fold_settled {T E : Type} :
    ∀ (evs : List (Nat × Settlement T E)) (st : AnyCtx E × PState T (List E) Unit),
      st.2.status ≠ .kInit → (evs.foldl mkAnyStep st).2 = st.2
  | [], _, _ => rfl
  | ev :: rest, st, h => by
      have h1 := mkAnyStep_snd_settled st ev h
      show (rest.foldl mkAnyStep (mkAnyStep st ev)).2 = st.2
      rw [mkAny_fold_settled rest (mkAnyStep st ev) (by rw [h1]; exact h), h1]

/-- A strictly short prefix of error events leaves the MkAny output untouched
and decrements the counter by its length. -/
lemma mkAny_fold_short_errors {T E : Type} :
    ∀ (evs : List (Nat × Settlement T E)) (ctx : AnyCtx E) (out : PState T (List E) Unit),
      (∀ p ∈ evs, p.2.isValue = false) → evs.length < ctx.counter →
      (evs.foldl mkAnyStep (ctx, out)).2 = out ∧
      (evs.foldl mkAnyStep (ctx, out)).1.counter = ctx.counter - evs.length
  | [], ctx, out, _, _ => ⟨rfl, by simp⟩
  | (i, s) :: rest, ctx, out, hall, hlen => by
      rcases s with v | e
      · have := hall (i, Settlement.value v) (List.mem_cons_self _ _)
        simp [Settlement.isValue] at this
      · have hne : ¬ ctx.counter - 1 = 0 := by
          simp only [List.length_cons] at hlen
          omega
        have hstep : mkAnyStep (ctx, out) (i, Settlement.error e) =
            (⟨ctx.counter - 1, ctx.errors.set i e⟩, out) := by
          simp only [mkAnyStep]
          rw [if_neg hne]
        have hlen2 : rest.length < ctx.counter - 1 := by
          simp only [List.length_cons] at hlen
          omega
        obtain ⟨h1, h2⟩ := mkAny_fold_short_errors rest ⟨ctx.counter - 1, ctx.errors.set i e⟩
          out (fun p hp => hall p (List.mem_cons_of_mem _ hp)) hlen2
        rw [List.foldl_cons, hstep]
        refine ⟨h1, ?_⟩
        rw [h2]
        simp only [List.length_cons]
        omega

/-- Folding a complete all-errors schedule from a faithful context rejects
the MkAny output with the positional error vector. -/
lemma mkAny_fold_errors {T E : Type} (n : Nat) (errs : Nat → E) :
    ∀ (evs : List (Nat × Settlement T E)) (rem : List Nat) (res : List E),
      (evs.map Prod.fst).Perm rem → rem ≠ [] → rem.Nodup → (∀ i ∈ rem, i < n) →
      (∀ p ∈ evs, p.2 = Settlement.error (errs p.1)) →
      res.length = n → (∀ i (h : i < res.length), i ∉ rem → res.get ⟨i, h⟩ = errs i) →
      (evs.foldl mkAnyStep (⟨rem.length, res⟩, (initPState : PState T (List E) Unit))).2 =
        ⟨.kPreRejected, some (.error ((List.range n).map errs)), none⟩
  | [], rem, res, hperm, hne, _, _, _, _, _ => by
      rw [List.map_nil] at hperm
      exact absurd (List.perm_nil.1 hperm.symm) hne
  | (i, s) :: rest, rem, res, hperm, hne, hnd, hbound, herrs, hlen, hres => by
      have hs : s = Settlement.error (errs i) :=
        herrs (i, s) (List.mem_cons_self _ _)
      subst hs
      rw [List.map_cons] at hperm
      obtain ⟨hi, hperm'⟩ := List.cons_perm_iff_perm_erase.1 hperm
      have hin : i < n := hbound i hi
      have herlen : (rem.erase i).length = rem.length - 1 := List.length_erase_of_mem hi
      have hnotin : ∀ j, j ≠ i → j ∉ rem.erase i → j ∉ rem := by
        intro j hji hjer hjr
        exact hjer ((List.mem_erase_of_ne hji).2 hjr)
      have hset : ∀ j (h : j < (res.set i (errs i)).length), j ∉ rem.erase i →
          (res.set i (errs i)).get ⟨j, h⟩ = errs j := by
        intro j h hj
        by_cases hji : j = i
        · subst hji
          simp only [List.get_eq_getElem]
          rw [List.getElem_set]
          simp
        · simp only [List.get_eq_getElem]
          rw [List.getElem_set, if_neg (fun hh => hji hh.symm)]
          have h2 : j < res.length := by simpa using h
          exact hres j h2 (hnotin j hji hj)
      by_cases h0 : rem.erase i = []
      · have hrest : rest = [] := by
          rw [h0] at hperm'
          exact List.map_eq_nil_iff.1 (List.perm_nil.1 hperm')
        have hc0 : rem.length - 1 = 0 := by rw [← herlen, h0]; rfl
        have hstep : mkAnyStep (⟨rem.length, res⟩, (initPState : PState T (List E) Unit))
            (i, Settlement.error (errs i)) =
            (⟨rem.length - 1, res.set i (errs i)⟩,
              (rejectOp (initPState : PState T (List E) Unit) (res.set i (errs i))).1) := by
          simp only [mkAnyStep]
          rw [hc0]
          rfl
        show (rest.foldl mkAnyStep _).2 = _
        rw [hrest, hstep]
        show (rejectOp (initPState : PState T (List E) Unit) (res.set i (errs i))).1 = _
        have hfin : res.set i (errs i) = (List.range n).map errs := by
          apply eq_map_range _ _ _ (by simpa using hlen)
          intro j h
          refine hset j h ?_
          rw [h0]
          exact List.not_mem_nil j
        rw [hfin]
        rfl
      · have hcne : ¬ rem.length - 1 = 0 := by
          rw [← herlen]
          exact Nat.pos_iff_ne_zero.1 (List.length_pos.2 h0)
        have hstep : mkAnyStep (⟨rem.length, res⟩, (initPState : PState T (List E) Unit))
            (i, Settlement.error (errs i)) =
            (⟨rem.length - 1, res.set i (errs i)⟩, (initPState : PState T (List E) Unit)) := by
          simp only [mkAnyStep]
          rw [if_neg hcne]
        show (rest.foldl mkAnyStep _).2 = _
        rw [hstep, ← herlen]
        exact mkAny_fold_errors n errs rest (rem.erase i) (res.set i (errs i)) hperm' h0
          (hnd.erase i) (fun j hj => hbound j (List.mem_of_mem_erase hj))
          (fun p hp => herrs p (List.mem_cons_of_mem _ hp)) (by simpa using hlen) hset

/-- Core of the MkAny resolution behavior: a complete schedule whose first
value is v leaves the output resolved with v, and the whole schedule and the
prefix ending at that first value produce the same output. -/
lemma mkAny_resolve_core {T E : Type} [Inhabited E] (n : Nat)
    (evs pre post : List (Nat × Settlement T E)) (i : Nat) (v : T)
    (hcomp : completeFor n evs) (hsplit : evs = pre ++ (i, Settlement.value v) :: post)
    (hpre : ∀ p ∈ pre, p.2.isValue = false) :
    (runMkAny n evs).2 = ⟨.kPreResolved, some (.value v), none⟩ ∧
    (runMkAny n (pre ++ [(i, Settlement.value v)])).2 =
      ⟨.kPreResolved, some (.value v), none⟩ := by
  have hlen : evs.length = n := by
    have := hcomp.length_eq
    simpa using this
  have hprelen : pre.length < n := by
    rw [hsplit] at hlen
    simp only [List.length_append, List.length_cons] at hlen
    omega
  obtain ⟨hout, _⟩ := mkAny_fold_short_errors pre ⟨n, List.replicate n default⟩
    (initPState : PState T (List E) Unit) hpre hprelen
  have hprefold : ∀ (tail : List (Nat × Settlement T E)),
      (runMkAny n (pre ++ (i, Settlement.value v) :: tail)).2 =
        ⟨.kPreResolved, some (.value v), none⟩ := by
    intro tail
    show ((pre ++ (i, Settlement.value v) :: tail).foldl mkAnyStep (mkAnyInit n)).2 = _
    rw [List.foldl_append]
    show (((i, Settlement.value v) :: tail).foldl mkAnyStep _).2 = _
    rw [List.foldl_cons]
    have hstep : mkAnyStep (pre.foldl mkAnyStep (mkAnyInit n)) (i, Settlement.value v) =
        ((pre.foldl mkAnyStep (mkAnyInit n)).1,
          (⟨.kPreResolved, some (.value v), none⟩ : PState T (List E) Unit)) := by
      show (_, (resolveOp _ v).1) = _
      rw [show (pre.foldl mkAnyStep (mkAnyInit n)).2 = initPState from hout]
      rfl
    rw [hstep]
    exact mkAny_fold_settled tail _ (fun h => by cases h)
  constructor
  · rw [hsplit]
    exact hprefold post
  · have : pre ++ [(i, Settlement.value v)] = pre ++ (i, Settlement.value v) :: [] := rfl
    rw [this]
    exact hprefold []

/-- Claim C7: over a complete schedule of a non-empty input sequence, MkAny
resolves with the value of the first input to resolve no matter how many
inputs rejected before it, later events leave the output unchanged, the
output is resolved whenever any input resolves, and only when all n inputs
reject does it reject, with the errors collected positionally by input
order. -/
theorem mkAny_first_value_or_all_errors {T E : Type} [Inhabited E] (n : Nat)
    (evs : List (Nat × Settlement T E)) (hn : 0 < n) (hcomp : completeFor n evs) :
    (∀ (pre post : List (Nat × Settlement T E)) (i : Nat) (v : T),
      evs = pre ++ (i, Settlement.value v) :: post →
      (∀ p ∈ pre, p.2.isValue = false) →
      (runMkAny n evs).2 = ⟨.kPreResolved, some (.value v), none⟩ ∧
      (runMkAny n evs).2 = (runMkAny n (pre ++ [(i, Settlement.value v)])).2) ∧
    ((∃ p ∈ evs, p.2.isValue = true) → (runMkAny n evs).2.status = .kPreResolved) ∧
    (∀ errs : Nat → E, (∀ p ∈ evs, p.2 = Settlement.error (errs p.1)) →
      (runMkAny n evs).2 =
        ⟨.kPreRejected, some (.error ((List.range n).map errs)), none⟩) := by
  refine ⟨?_, ?_, ?_⟩
  · intro pre post i v hsplit hpre
    obtain ⟨h1, h2⟩ := mkAny_resolve_core n evs pre post i v hcomp hsplit hpre
    rw [h1, h2]
    exact ⟨rfl, rfl⟩
  · intro hval
    have hval2 : ∃ p ∈ evs, (fun p => !p.2.isValue) p = false := by
      rcases hval with ⟨p, hp, hPv⟩
      exact ⟨p, hp, by show (!p.2.isValue) = false; rw [hPv]; rfl⟩
    obtain ⟨pre, x, post, hsplit, hpre, hP⟩ :=
      exists_first_fail (fun p => !p.2.isValue) evs hval2
    rcases x with ⟨i, v | e⟩
    · obtain ⟨h1, _⟩ := mkAny_resolve_core n evs pre post i v hcomp hsplit
        (fun p hp => by
          have := hpre p hp
          cases hpv : p.2.isValue
          · rfl
          · rw [hpv] at this
            cases this)
      rw [h1]
    · simp [Settlement.isValue] at hP
  · intro errs herrs
    have hinit : (mkAnyInit n : AnyCtx E × PState T (List E) Unit) =
        (⟨n, List.replicate n default⟩, initPState) := rfl
    show (evs.foldl mkAnyStep (mkAnyInit n)).2 = _
    rw [hinit]
    have hlenr : ((List.range n).length : Nat) = n := List.length_range n
    have := mkAny_fold_errors (T := T) n errs evs (List.range n)
      (List.replicate n default) hcomp
      (fun h => by rw [List.range_eq_nil.1 h] at hn; exact absurd hn (by decide))
      (List.nodup_range n) (fun i hi => List.mem_range.1 hi) herrs
      (List.length_replicate n default)
      (fun i h hi => absurd (List.mem_range.2 (by simpa using h)) hi)
    rwa [hlenr] at this

/-- Witness for C7: two inputs, input 0 rejects first, then input 1
resolves; the output is resolved with the value of input 1. -/
theorem mkAny_first_value_or_all_errors_witness :
    (runMkAny (T := Nat) 2 [(0, Settlement.error "boom"), (1, Settlement.value 7)]).2 =
      ⟨.kPreResolved, some (.value 7), none⟩ ∧
    (runMkAny (T := Nat) 2 [(0, Settlement.error "a"), (1, Settlement.error "b")]).2 =
      ⟨.kPreRejected, some (.error ["a", "b"]), none⟩ := by
  constructor
  · exact ((mkAny_first_value_or_all_errors (T := Nat) 2
      [(0, Settlement.error "boom"), (1, Settlement.value 7)] (by decide)
      (show ([0, 1] : List Nat).Perm (List.range 2) by decide)).1
      [(0, Settlement.error "boom")] [] 1 7 rfl (by decide)).1
  · have := (mkAny_first_value_or_all_errors (T := Nat) 2
      [(0, Settlement.error "a"), (1, Settlement.error "b")] (by decide)
      (show ([0, 1] : List Nat).Perm (List.range 2) by decide)).2.2
      (fun i => if i = 0 then "a" else "b") (by decide)
    simpa using this

end Evcpp
